import Mathlib

/-!
Verification of the `hprof2flamegraph` converters.

This file shallowly embeds the two Python converters of the repository,
`stackcollapse_hpl.py` (binary HPL decoder + stack folder/aggregator) and
`stackcollapse_hprof.py` (regex-driven text extraction), and proves the
specification claims about them.

Modelling conventions:
* Python `bytes` are `List Nat` (each element taken mod 256 where decoded);
  big-endian struct decodes carry explicit `% 2 ^ w` arithmetic.
* Python exceptions (`KeyError`, `struct.error`, `AttributeError`,
  `TypeError`, unexpected-marker `Exception`) are `Except String _` errors.
* Python dicts are association lists; insertion prepends, so `List.lookup`
  (first match) realises Python's last-write-wins overwrite semantics.
* `sys.stderr` diagnostics are collected in a `List String` of notices.
-/

deriving instance DecidableEq for Except

namespace H2F

/-- Python word character for `\w` in `re` (modelled on the ASCII range):
letters, digits and underscore. -/
def isWordChar (c : Char) : Bool := c.isAlphanum || c == '_'

/-- Python whitespace for `str.strip()`: space, tab, newline, CR, VT, FF. -/
def isPySpace (c : Char) : Bool :=
  c == ' ' || c == '\t' || c == '\n' || c == '\r' || c == '\x0b' || c == '\x0c'

/-- Build a string from an explicit character list. -/
def strOfList (cs : List Char) : String := ⟨cs⟩

/-- Split a character list at every occurrence of `sep` (Python
`str.split(sep)`): always returns at least one (possibly empty) group. -/
def splitOnChar (sep : Char) : List Char → List (List Char)
  | [] => [[]]
  | c :: rest =>
    let r := splitOnChar sep rest
    if c == sep then [] :: r
    else
      match r with
      | [] => [[c]]
      | g :: gs => (c :: g) :: gs

/-- Join character-list groups with a single separator character
(Python `sep.join`). -/
def intercalateChar (sep : Char) : List (List Char) → List Char
  | [] => []
  | [g] => g
  | g :: gs => g ++ sep :: intercalateChar sep gs

/-- Join strings with a one-character separator. -/
def joinWith (sep : Char) (ls : List String) : String :=
  strOfList (intercalateChar sep (ls.map String.data))

/-- `re.sub(r'(\w)\w*', r'\1', s)`: collapse every maximal run of word
characters to its first character, leaving other characters in place. -/
def collapseWordRuns : List Char → List Char
  | [] => []
  | c :: rest =>
    if isWordChar c then c :: collapseWordRuns (rest.dropWhile isWordChar)
    else c :: collapseWordRuns rest
termination_by l => l.length
decreasing_by
  · have := (List.dropWhile_sublist (l := rest) isWordChar).length_le
    simp only [List.length_cons]
    omega
  · simp only [List.length_cons]
    omega

/-- Does `s` end with `t`? (used only to state claims about suffixes). -/
def strEndsWith (s t : String) : Bool := t.data.isSuffixOf s.data

end H2F

namespace Hpl

open H2F

/-- `Method` namedtuple of `stackcollapse_hpl.py`. -/
structure Method where
  id : Int
  file_name : String
  class_name : String
  method_name : String
deriving DecidableEq, Repr

/-- `Frame` namedtuple of `stackcollapse_hpl.py` (field order
`bci, line_no, method_id`). -/
structure Frame where
  bci : Option Int
  line_no : Option Int
  method_id : Int
deriving DecidableEq, Repr

/-- `Trace` namedtuple of `stackcollapse_hpl.py`. -/
structure Trace where
  thread_id : Nat
  frame_count : Int
  frames : List Frame
deriving DecidableEq, Repr

/-- The fixed `AGENT_ERRORS` reason list. -/
def AGENT_ERRORS : List String := [
  "No Java Frames[ERR=0]",
  "No class load[ERR=-1]",
  "GC Active[ERR=-2]",
  "Unknown not Java[ERR=-3]",
  "Not walkable not Java[ERR=-4]",
  "Unknown Java[ERR=-5]",
  "Not walkable Java[ERR=-6]",
  "Unknown state[ERR=-7]",
  "Thread exit[ERR=-8]",
  "Deopt[ERR=-9]",
  "Safepoint[ERR=-10]"]

/-- The Method table pre-seeded with the synthetic agent-error methods
(`method_id = -1 - index`). -/
def initialMethods : List (Int × Method) :=
  AGENT_ERRORS.enum.map (fun p =>
    (-1 - (p.1 : Int), Method.mk (-1 - (p.1 : Int)) "" "/Error/" p.2))

/-- Python dict lookup on the association-list model. -/
def lookupMethod (methods : List (Int × Method)) (id : Int) : Option Method :=
  List.lookup id methods

/-- `abbreviate_package` (identical in `stackcollapse_hpl.py` and
`stackcollapse_hprof.py`): match
`(?P<package>.*\.)(?P<remainder>[^.]+\.[^.]+)$`; the greedy `.*` puts the
package boundary at the second-to-last dot, and the match exists exactly when
the name has at least three dot-separated segments whose last two are
non-empty. On a match, collapse each word run of the package (dots included)
and keep the remainder; otherwise return the input unchanged. -/
def abbreviate_package (class_name : String) : String :=
  match (splitOnChar '.' class_name.data).reverse with
  | seg2 :: seg1 :: p :: ps =>
    if seg2.isEmpty || seg1.isEmpty then class_name
    else
      strOfList (collapseWordRuns (intercalateChar '.' ((p :: ps).reverse) ++ ['.'])
        ++ seg1 ++ '.' :: seg2)
  | _ => class_name

/-- `get_method_name`: strip the leading and trailing delimiter of the stored
class name (`[1:-1]`), convert `/` to `.`, optionally abbreviate the package,
then append `"." + method_name`. -/
def get_method_name (method : Method) (shorten_pkgs : Bool) : String :=
  let class_name :=
    strOfList (((method.class_name.data.drop 1).dropLast).map
      (fun c => if c == '/' then '.' else c))
  let class_name := if shorten_pkgs then abbreviate_package class_name else class_name
  class_name ++ "." ++ method.method_name

/-- Python truthiness of `frame.line_no`: `None` and `0` are falsy. -/
def truthyLineNo : Option Int → Bool
  | none => false
  | some n => n != 0

/-- `format_frame`: the formatted method name, plus `:<line>` when the line
number is truthy and `--discard-lineno` is off. -/
def format_frame (frame : Frame) (method : Method)
    (discard_lineno shorten_pkgs : Bool) : String :=
  let formatted := get_method_name method shorten_pkgs
  if !discard_lineno && truthyLineNo frame.line_no then
    formatted ++ ":" ++ toString (frame.line_no.getD 0)
  else formatted

/-- Command-line options of `stackcollapse_hpl.py`'s `main`. -/
structure Args where
  discard_lineno : Bool
  discard_thread : Bool
  shorten_pkgs : Bool
  skip_trace_on_missing_frame : Bool
deriving DecidableEq, Repr

/-- Outcome of the per-trace frame loop of `main`:
fatal `KeyError`, trace skipped (with the stderr notice), or the formatted
frame list. -/
inductive FramesOut where
  | fatal (msg : String)
  | skipped (notice : String)
  | ok (frames : List String)
deriving DecidableEq, Repr

/-- The stderr notice `"skipped missing frame %s"` for a method id. -/
def missingNotice (id : Int) : String := "skipped missing frame " ++ toString id

/-- The inner `for frame in trace.frames` loop of `main`: on each frame,
first the missing-frame skip check (only when the option is set), then the
dict lookup (a `KeyError` aborts the run), then formatting. -/
def frames_loop (args : Args) (methods : List (Int × Method)) :
    List Frame → FramesOut
  | [] => .ok []
  | f :: fs =>
    if args.skip_trace_on_missing_frame && (lookupMethod methods f.method_id).isNone then
      .skipped (missingNotice f.method_id)
    else
      match lookupMethod methods f.method_id with
      | none => .fatal ("KeyError: " ++ toString f.method_id)
      | some m =>
        match frames_loop args methods fs with
        | .ok rest =>
          .ok (format_frame f m args.discard_lineno args.shorten_pkgs :: rest)
        | out => out

/-- Per-trace outcome: fatal, skipped (with notice), or the folded-stack key. -/
inductive TraceOut where
  | fatal (msg : String)
  | skipped (notice : String)
  | key (s : String)
deriving DecidableEq, Repr

/-- One iteration of `main`'s outer loop: run the frame loop, optionally
append the synthetic `"Thread <id>"` frame, reverse and join with `;`. -/
def process_trace (args : Args) (methods : List (Int × Method)) (t : Trace) :
    TraceOut :=
  match frames_loop args methods t.frames with
  | .fatal e => .fatal e
  | .skipped n => .skipped n
  | .ok frames =>
    let frames :=
      if !args.discard_thread then frames ++ ["Thread " ++ toString t.thread_id]
      else frames
    .key (joinWith ';' frames.reverse)

/-- `folded_stacks[folded_stack] += 1` on the association-list model of the
`defaultdict(int)` (new keys appended at the end, Python dict insertion
order). -/
def bump (m : List (String × Nat)) (k : String) : List (String × Nat) :=
  match m with
  | [] => [(k, 1)]
  | (k', c) :: rest => if k' == k then (k', c + 1) :: rest else (k', c) :: bump rest k

/-- `main`'s outer loop over the trace list, accumulating the aggregation map
and the stderr notices. -/
def run_traces (args : Args) (methods : List (Int × Method)) :
    List Trace → List (String × Nat) → List String →
    Except String (List (String × Nat) × List String)
  | [], m, ns => .ok (m, ns)
  | t :: ts, m, ns =>
    match process_trace args methods t with
    | .fatal e => .error e
    | .skipped n => run_traces args methods ts m (ns ++ [n])
    | .key k => run_traces args methods ts (bump m k) ns

/-- The folding/aggregation stage of `main` (after `parse_hpl`). -/
def main_fold (args : Args) (methods : List (Int × Method)) (traces : List Trace) :
    Except String (List (String × Nat) × List String) :=
  run_traces args methods traces [] []

/-- `for folded_stack in sorted(folded_stacks)`: the aggregation map in
lexicographic key order. -/
def output_pairs (m : List (String × Nat)) : List (String × Nat) :=
  m.mergeSort (fun a b => a.1 ≤ b.1)

/-- The emitted output lines `"%s %s" % (folded_stack, sample_count)`. -/
def output_lines (m : List (String × Nat)) : List String :=
  (output_pairs m).map (fun p => p.1 ++ " " ++ toString p.2)

/-- Total sample count of an aggregation map. -/
def sumCounts (m : List (String × Nat)) : Nat := (m.map Prod.snd).sum

/-- A trace is discarded by the missing-frame skip option iff the option is
set and some frame's method id is not in the Method table. -/
def traceSkipped (args : Args) (methods : List (Int × Method)) (t : Trace) : Bool :=
  args.skip_trace_on_missing_frame &&
    t.frames.any (fun f => (lookupMethod methods f.method_id).isNone)

/-! ### The binary decoder `parse_hpl` -/

/-- `fh.read(n)` + `struct.unpack`: take exactly `n` bytes or fail
(a short read makes `struct.unpack` raise `struct.error`). -/
def readBytes (n : Nat) (l : List Nat) : Option (List Nat × List Nat) :=
  if n ≤ l.length then some (l.take n, l.drop n) else none

/-- Big-endian byte-list value (each byte taken mod 256). -/
def beNat (bs : List Nat) : Nat := bs.foldl (fun acc b => acc * 256 + b % 256) 0

/-- `struct.unpack('>Q', _)`: unsigned 64-bit big-endian. -/
def u64be (bs : List Nat) : Nat := beNat bs

/-- `struct.unpack('>i', _)`: signed 32-bit big-endian
(two's complement: values `≥ 2^31` wrap to negatives). -/
def i32be (bs : List Nat) : Int :=
  let v := beNat bs
  if 2 ^ 31 ≤ v then (v : Int) - 2 ^ 32 else (v : Int)

/-- `struct.unpack('>b', _)`: signed byte. -/
def sbyte (b : Nat) : Int :=
  let v := b % 256
  if 128 ≤ v then (v : Int) - 256 else (v : Int)

/-- `parse_hpl_string`: a signed 32-bit big-endian length then that many
bytes. Returns the string, the remaining input, and the number of bytes
consumed. The `decode('utf-8')` is modelled as a byte-to-char mapping
(faithful on the single-byte range; no claim depends on multi-byte
decoding). -/
def parse_hpl_string (l : List Nat) : Option (String × List Nat × Nat) :=
  match readBytes 4 l with
  | none => none
  | some (lenB, rest) =>
    let len := i32be lenB
    if len < 0 then none
    else
      match readBytes len.toNat rest with
      | none => none
      | some (strB, rest2) =>
        some (strOfList (strB.map (fun b => Char.ofNat (b % 256))), rest2, 4 + len.toNat)

/-- `traces[-1].frames.append(frame)`: append a frame to the most recently
opened trace; `none` models the `IndexError` when no trace is open. -/
def append_frame (traces : List Trace) (f : Frame) : Option (List Trace) :=
  match traces.getLast? with
  | none => none
  | some t =>
    some (traces.dropLast ++ [{ t with frames := t.frames ++ [f] }])

/-- The record-reading loop of `parse_hpl`. `pos` is the file position of the
next unread byte (so after reading a marker byte at offset `k` the position,
Python's `fh.tell()`, is `k + 1`). `fuel` bounds the recursion; every
iteration consumes at least one byte, so any `fuel ≥ input.length` gives the
loop's exact behaviour (see `parse_loop_fuel_irrelevant`). -/
def parse_loop (fuel : Nat) (input : List Nat) (pos : Nat)
    (traces : List Trace) (methods : List (Int × Method)) :
    Except String (List Trace × List (Int × Method)) :=
  match fuel with
  | 0 =>
    match input with
    | [] => .ok (traces, methods)
    | _ => .error "out of fuel"
  | fuel + 1 =>
    match input with
    | [] => .ok (traces, methods)
    | b :: rest =>
      let marker := sbyte b
      if marker == 0 then .ok (traces, methods)
      else if marker == 1 then
        match readBytes 12 rest with
        | none => .error "struct.error: unpack requires more bytes"
        | some (payload, rest2) =>
          let frame_count := i32be (payload.take 4)
          let thread_id := u64be (payload.drop 4)
          if 0 < frame_count then
            parse_loop fuel rest2 (pos + 13)
              (traces ++ [Trace.mk thread_id frame_count []]) methods
          else if 11 < -frame_count then
            -- The source here evaluates `Method(method_id, "Unknown err[ERR=%s]" % frame_count)`,
            -- a 2-argument call of the 4-field `Method` namedtuple constructor.
            .error "TypeError: Method() missing 2 required positional arguments"
          else
            parse_loop fuel rest2 (pos + 13)
              (traces ++ [Trace.mk thread_id 1 [Frame.mk none none (frame_count - 1)]])
              methods
      else if marker == 2 then
        match readBytes 12 rest with
        | none => .error "struct.error: unpack requires more bytes"
        | some (payload, rest2) =>
          let bci := i32be (payload.take 4)
          let method_id := u64be (payload.drop 4)
          match append_frame traces (Frame.mk (some bci) none (method_id : Int)) with
          | none => .error "IndexError: list index out of range"
          | some traces2 => parse_loop fuel rest2 (pos + 13) traces2 methods
      else if marker == 21 then
        match readBytes 16 rest with
        | none => .error "struct.error: unpack requires more bytes"
        | some (payload, rest2) =>
          let bci := i32be (payload.take 4)
          let line_no := i32be ((payload.drop 4).take 4)
          let method_id := u64be (payload.drop 8)
          let line : Option Int := if line_no < 0 then none else some line_no
          match append_frame traces (Frame.mk (some bci) line (method_id : Int)) with
          | none => .error "IndexError: list index out of range"
          | some traces2 => parse_loop fuel rest2 (pos + 17) traces2 methods
      else if marker == 3 then
        match readBytes 8 rest with
        | none => .error "struct.error: unpack requires more bytes"
        | some (midB, rest2) =>
          let method_id : Int := (u64be midB : Int)
          match parse_hpl_string rest2 with
          | none => .error "struct.error: unpack requires more bytes"
          | some (file_name, rest3, c1) =>
            match parse_hpl_string rest3 with
            | none => .error "struct.error: unpack requires more bytes"
            | some (class_name, rest4, c2) =>
              match parse_hpl_string rest4 with
              | none => .error "struct.error: unpack requires more bytes"
              | some (method_name, rest5, c3) =>
                parse_loop fuel rest5 (pos + 9 + c1 + c2 + c3) traces
                  ((method_id, Method.mk method_id file_name class_name method_name)
                    :: methods)
      else
        .error ("Unexpected marker: " ++ toString marker ++ " at offset "
          ++ toString (pos + 1))

/-- `parse_hpl`: run the record loop on the whole byte stream, starting from
the pre-seeded agent-error Method table. -/
def parse_hpl (input : List Nat) :
    Except String (List Trace × List (Int × Method)) :=
  parse_loop input.length input 0 [] initialMethods

/-! ### C2: the `skip_sleep_frames` option (spec-modelled)

`src/stackcollapse_hpl.py` has no `skip_sleep_frames` option; the spec
attributes it to an extended sub-variant of the HPL folder that is not part
of `src/`. The folder extension below is modelled from the spec's words. -/

/-- The fixed comparison string of the sleep-frame skip. -/
def sleepName : String := "java.lang.Thread.sleep"

/-- The diagnostic notice of a sleep-frame skip. -/
def sleepNotice : String := "skipped sleep frame"

/-- Modelled from the spec: the per-frame loop of the extended folder
(`skip_sleep_frames` sub-variant, absent from `src/`). After the
missing-frame check and the symbol lookup, "if `skip_sleep_frames` is set
and the resolved, line-number-free formatted name equals the fixed string
`\"java.lang.Thread.sleep\"`, discard the entire trace (diagnostic notice,
same as above)"; otherwise the frame is formatted exactly as in
`frames_loop`. -/
def frames_loop_ext (args : Args) (skip_sleep : Bool)
    (methods : List (Int × Method)) : List Frame → FramesOut
  | [] => .ok []
  | f :: fs =>
    if args.skip_trace_on_missing_frame && (lookupMethod methods f.method_id).isNone then
      .skipped (missingNotice f.method_id)
    else
      match lookupMethod methods f.method_id with
      | none => .fatal ("KeyError: " ++ toString f.method_id)
      | some m =>
        if skip_sleep && (format_frame f m true args.shorten_pkgs == sleepName) then
          .skipped sleepNotice
        else
          match frames_loop_ext args skip_sleep methods fs with
          | .ok rest =>
            .ok (format_frame f m args.discard_lineno args.shorten_pkgs :: rest)
          | out => out

/-- Modelled from the spec: per-trace processing of the extended folder. -/
def process_trace_ext (args : Args) (skip_sleep : Bool)
    (methods : List (Int × Method)) (t : Trace) : TraceOut :=
  match frames_loop_ext args skip_sleep methods t.frames with
  | .fatal e => .fatal e
  | .skipped n => .skipped n
  | .ok frames =>
    let frames :=
      if !args.discard_thread then frames ++ ["Thread " ++ toString t.thread_id]
      else frames
    .key (joinWith ';' frames.reverse)

/-- Modelled from the spec: the outer loop of the extended folder. -/
def run_traces_ext (args : Args) (skip_sleep : Bool)
    (methods : List (Int × Method)) :
    List Trace → List (String × Nat) → List String →
    Except String (List (String × Nat) × List String)
  | [], m, ns => .ok (m, ns)
  | t :: ts, m, ns =>
    match process_trace_ext args skip_sleep methods t with
    | .fatal e => .error e
    | .skipped n => run_traces_ext args skip_sleep methods ts m (ns ++ [n])
    | .key k => run_traces_ext args skip_sleep methods ts (bump m k) ns

/-- Modelled from the spec: the extended folder. -/
def main_fold_ext (args : Args) (skip_sleep : Bool)
    (methods : List (Int × Method)) (traces : List Trace) :
    Except String (List (String × Nat) × List String) :=
  run_traces_ext args skip_sleep methods traces [] []

/-- A frame that resolves to the line-number-free formatted name
`java.lang.Thread.sleep`. -/
def isSleepFrame (args : Args) (methods : List (Int × Method)) (f : Frame) : Bool :=
  match lookupMethod methods f.method_id with
  | some m => format_frame f m true args.shorten_pkgs == sleepName
  | none => false

/-- A trace containing a sleep frame. -/
def hasSleepFrame (args : Args) (methods : List (Int × Method)) (t : Trace) : Bool :=
  t.frames.any (isSleepFrame args methods)

/-- The notices of a `skip_sleep_frames` run: one per discarded trace. -/
def sleepNotices (args : Args) (methods : List (Int × Method))
    (ts : List Trace) : List String :=
  ts.filterMap (fun t =>
    if hasSleepFrame args methods t then some sleepNotice else none)

/-! ### Auxiliary semantic functions used by the theorems -/

/-- A frame's line number is absent or non-negative. -/
def frameLineOk (f : Frame) : Bool :=
  match f.line_no with
  | none => true
  | some n => decide (0 ≤ n)

/-- All frames of all traces in a list satisfy `frameLineOk`. -/
def tracesLineOk (traces : List Trace) : Prop :=
  ∀ t ∈ traces, ∀ f ∈ t.frames, frameLineOk f = true

/-- The aggregation-map part of the fold, as a function of the per-trace
outcome: only `.key` outcomes bump the map. -/
def foldKeys (step : Trace → TraceOut) :
    List Trace → List (String × Nat) → List (String × Nat)
  | [], m => m
  | t :: ts, m =>
    foldKeys step ts
      (match step t with
       | .key k => bump m k
       | _ => m)

/-- The stderr notices of a skip-option run: one `missingNotice` per trace,
for its first frame whose method id is missing. -/
def missingNotices (methods : List (Int × Method)) (ts : List Trace) : List String :=
  ts.filterMap (fun t =>
    (t.frames.find? (fun f => (lookupMethod methods f.method_id).isNone)).map
      (fun f => missingNotice f.method_id))

/-- Dot-join of a list of strings (character-level). -/
def joinDot (ss : List String) : String :=
  strOfList (intercalateChar '.' (ss.map String.data))

/-- The first character of a string, as a string. -/
def strTake1 (s : String) : String := strOfList (s.data.take 1)

end Hpl

namespace Hprof

open H2F

/-!
### The HPROF text path (`stackcollapse_hprof.py`)

The regex `re.match(r'(?P<start>.+)\((.+):(?P<line>.+)\)', _)` of
`remove_unknown_lineno` is embedded as a backtracking matcher specialised to
that pattern: each `.+` group is tried greedily (longest candidate first,
exactly the `re` engine's order), and the match is a prefix match — the
pattern is unanchored on the right.
-/

/-- All splits `cs = pre ++ post` with `pre` non-empty, longest `pre` first
(the order a greedy `.+` tries them). -/
def splitsDesc (cs : List Char) : List (List Char × List Char) :=
  (List.range cs.length).reverse.map (fun i => (cs.take (i + 1), cs.drop (i + 1)))

/-- Match `(.+)\)` as a prefix of `cs`, greedily; returns the group. -/
def matchCParen (cs : List Char) : Option (List Char) :=
  (splitsDesc cs).findSome? (fun p =>
    match p.2 with
    | ')' :: _ => some p.1
    | _ => none)

/-- Match `(.+):(.+)\)` as a prefix of `cs`, greedily; returns the two
groups. -/
def matchBColon (cs : List Char) : Option (List Char × List Char) :=
  (splitsDesc cs).findSome? (fun p =>
    match p.2 with
    | ':' :: rest3 => (matchCParen rest3).map (fun c => (p.1, c))
    | _ => none)

/-- Match `(?P<start>.+)\((.+):(?P<line>.+)\)` as a prefix of `cs`,
greedily; returns the `start` and `line` groups. -/
def matchFrame (cs : List Char) : Option (List Char × List Char) :=
  (splitsDesc cs).findSome? (fun p =>
    match p.2 with
    | '(' :: rest2 => (matchBColon rest2).map (fun bc => (p.1, bc.2))
    | _ => none)

/-- `remove_unknown_lineno`: the `AttributeError` raised by calling `.group`
on a failed match is the error case. -/
def remove_unknown_lineno (stack_element : String) (discard_lineno : Bool) :
    Except String String :=
  match matchFrame stack_element.data with
  | none => .error "AttributeError: NoneType object has no attribute group"
  | some (start, line) =>
    if line == "Unknown line".data then .ok (strOfList start)
    else if discard_lineno then .ok (strOfList start)
    else .ok (strOfList (start ++ ':' :: line))

/-- Python `str.strip()`. -/
def pyStrip (s : List Char) : List Char :=
  ((s.dropWhile isPySpace).reverse.dropWhile isPySpace).reverse

/-- The `remove_unknown_lineno` list comprehension of `_process_stack`,
propagating the first `AttributeError`. -/
def mapRemove (discard_lineno : Bool) : List (List Char) → Except String (List String)
  | [] => .ok []
  | l :: ls =>
    match remove_unknown_lineno (strOfList l) discard_lineno with
    | .error e => .error e
    | .ok s =>
      match mapRemove discard_lineno ls with
      | .error e => .error e
      | .ok rest => .ok (s :: rest)

/-- `_process_stack`: split on newlines, keep truthy (non-empty) lines,
strip, adjust line numbers, optionally abbreviate packages. -/
def process_stack (stack : String) (discard_lineno shorten_pkgs : Bool) :
    Except String (List String) :=
  let lines := (splitOnChar '\n' stack.data).filter (fun l => !l.isEmpty)
  let lines := lines.map pyStrip
  match mapRemove discard_lineno lines with
  | .error e => .error e
  | .ok stack =>
    .ok (if shorten_pkgs then stack.map Hpl.abbreviate_package else stack)

/-- One `TRACE` block as matched by `get_stacks`' `finditer` pattern
`TRACE (?P<trace_id>[0-9]+):( \(thread=(?P<thread_id>[0-9]+)\))?\n(?P<stack>(\t.+\n)+)`.
The scan of the raw file content into these matches is modelled as a
pre-parsed list of blocks; the fields are the named groups. -/
structure TraceBlock where
  trace_id : String
  thread_id : Option String
  stack : String
deriving DecidableEq, Repr

/-- `"<empty>" in stack`. -/
def hasEmptySentinel (stack : String) : Bool :=
  decide ("<empty>".data <:+: stack.data)

/-- The loop body of `get_stacks` over the blocks, accumulating the
`stacks` dict (prepend = overwrite on lookup). -/
def get_stacks_loop (discard_lineno discard_thread shorten_pkgs : Bool) :
    List TraceBlock → List (String × List String) →
    Except String (List (String × List String))
  | [], acc => .ok acc
  | b :: bs, acc =>
    if hasEmptySentinel b.stack then
      get_stacks_loop discard_lineno discard_thread shorten_pkgs bs acc
    else
      match process_stack b.stack discard_lineno shorten_pkgs with
      | .error e => .error e
      | .ok stack =>
        let stack :=
          match b.thread_id with
          | some tid =>
            if tid != "" && !discard_thread then stack ++ ["Thread " ++ tid]
            else stack
          | none => stack
        get_stacks_loop discard_lineno discard_thread shorten_pkgs bs
          ((b.trace_id, stack) :: acc)

/-- `get_stacks` on the pre-parsed trace blocks. -/
def get_stacks (blocks : List TraceBlock)
    (discard_lineno discard_thread shorten_pkgs : Bool) :
    Except String (List (String × List String)) :=
  get_stacks_loop discard_lineno discard_thread shorten_pkgs blocks []

/-- `to_flamegraph`: one line per entry of the sample-count mapping, in
order; `stacks[id]` on an id absent from the stack mapping raises
`KeyError`. Counts are kept as the raw strings `get_counts` stores. -/
def to_flamegraph (stackMap : List (String × List String))
    (counts : List (String × String)) : Except String (List String) :=
  match counts with
  | [] => .ok []
  | (id, count) :: rest =>
    match List.lookup id stackMap with
    | none => .error ("KeyError: " ++ id)
    | some stack =>
      match to_flamegraph stackMap rest with
      | .error e => .error e
      | .ok ls => .ok ((joinWith ';' stack.reverse ++ " " ++ count) :: ls)

end Hprof

namespace Hpl

open H2F

/-! ### C5: line-number suffix -/

/-- C5 (amended): the formatted frame carries the `:<line>` suffix iff the
line number is present, *non-zero* and `--discard-lineno` is off. Python's
truthiness test `frame.line_no` makes the present value `0` behave like an
absent line number, so a zero line number never produces a suffix; an absent
line number never produces one either. -/
theorem format_frame_lineno_suffix (frame : Frame) (method : Method)
    (discard_lineno shorten_pkgs : Bool) :
    (∀ n : Int, frame.line_no = some n → n ≠ 0 → discard_lineno = false →
      format_frame frame method discard_lineno shorten_pkgs =
        get_method_name method shorten_pkgs ++ ":" ++ toString n) ∧
    ((frame.line_no = none ∨ frame.line_no = some 0 ∨ discard_lineno = true) →
      format_frame frame method discard_lineno shorten_pkgs =
        get_method_name method shorten_pkgs) := by
  constructor
  · intro n hn hnz hd
    simp [format_frame, truthyLineNo, hn, hd, hnz]
  · rintro (h | h | h) <;> simp [format_frame, truthyLineNo, h]

/-- C5 witness: a present non-zero line number with the option off does get
the suffix. -/
theorem format_frame_lineno_suffix_witness :
    format_frame ⟨some 0, some 12, 1⟩ ⟨1, "Foo.java", "LFoo;", "bar"⟩ false false =
      get_method_name ⟨1, "Foo.java", "LFoo;", "bar"⟩ false ++ ":" ++ toString (12 : Int) :=
  (format_frame_lineno_suffix ⟨some 0, some 12, 1⟩ ⟨1, "Foo.java", "LFoo;", "bar"⟩
    false false).1 12 rfl (by decide) rfl

/-- C5 counterexample: a frame whose line number is present with the value
`0`, with `--discard-lineno` off, is formatted *without* the `:0` suffix the
claim promises (Python truthiness of `0`). -/
theorem format_frame_zero_lineno_cex :
    format_frame ⟨some 0, some 0, 1⟩ ⟨1, "Foo.java", "LFoo;", "bar"⟩ false false =
      "Foo.bar" ∧
    H2F.strEndsWith "Foo.bar" ":0" = false := by
  constructor
  · decide
  · decide

/-! ### C7: unexpected marker byte -/

/-- C7 (amended): reading a marker byte other than `0`, `1`, `2`, `21`, `3`
aborts decoding with an error that reports the stream position *after* the
marker byte was read (`fh.tell()`), i.e. the marker byte's offset plus one;
no further records are decoded. -/
theorem parse_unexpected_marker_offset (fuel pos b : Nat) (rest : List Nat)
    (traces : List Trace) (methods : List (Int × Method))
    (h0 : sbyte b ≠ 0) (h1 : sbyte b ≠ 1) (h2 : sbyte b ≠ 2)
    (h21 : sbyte b ≠ 21) (h3 : sbyte b ≠ 3) :
    parse_loop (fuel + 1) (b :: rest) pos traces methods =
      .error ("Unexpected marker: " ++ toString (sbyte b) ++ " at offset "
        ++ toString (pos + 1)) := by
  simp [parse_loop, h0, h1, h2, h21, h3]

/-- C7 witness: decoding a stream whose first byte is the marker `5` fails
with the error reporting offset `0 + 1`. -/
theorem parse_unexpected_marker_offset_witness :
    parse_loop (0 + 1) (5 :: []) 0 [] initialMethods =
      .error ("Unexpected marker: " ++ toString (sbyte 5) ++ " at offset "
        ++ toString (0 + 1)) :=
  parse_unexpected_marker_offset 0 0 5 [] [] initialMethods
    (by decide) (by decide) (by decide) (by decide) (by decide)

/-- C7 counterexample: for the one-byte stream `[5]` the unexpected marker
sits at byte offset `0`, yet the error message reports offset `1` (Python
reports `fh.tell()`, the position after reading the marker byte), not the
offset of the marker byte itself as the claim states. -/
theorem parse_unexpected_marker_offset_cex :
    parse_hpl [5] = .error "Unexpected marker: 5 at offset 1" ∧
    "Unexpected marker: 5 at offset 1" ≠ "Unexpected marker: 5 at offset 0" := by
  constructor
  · decide
  · decide

/-! ### C3: error-report traces with an out-of-range reason -/

/-- C3: a trace-start record with `frame_count = -12` (so `abs(frame_count)`
exceeds the 11 known agent-error reasons) does *not* synthesize an
"Unknown err" Method entry: the source evaluates
`Method(method_id, "Unknown err[ERR=%s]" % frame_count)`, passing 2 arguments
to the 4-field `Method` namedtuple constructor, which raises `TypeError` and
aborts the whole decode. -/
theorem parse_unknown_err_typeerror :
    parse_hpl ([1, 255, 255, 255, 244] ++ List.replicate 8 0) =
      .error "TypeError: Method() missing 2 required positional arguments" := by
  decide

/-! ### C9: decoded line numbers are absent or non-negative -/

theorem tracesLineOk_append_frame {traces traces2 : List Trace} {f : Frame}
    (hacc : tracesLineOk traces) (hf : frameLineOk f = true)
    (h : append_frame traces f = some traces2) : tracesLineOk traces2 := by
  unfold append_frame at h
  cases hl : traces.getLast? with
  | none => rw [hl] at h; exact absurd h (by simp)
  | some tl =>
    rw [hl] at h
    injection h with h
    subst h
    intro t ht f' hf'
    rcases List.mem_append.1 ht with ht | ht
    · exact hacc t (List.mem_of_mem_dropLast ht) f' hf'
    · have htl : tl ∈ traces := by
        have := List.mem_getLast?_eq_getLast (l := traces) (x := tl) hl
        rcases this with ⟨hne, rfl⟩
        exact List.getLast_mem hne
      rcases List.mem_singleton.1 ht with rfl
      simp only [List.mem_append] at hf'
      rcases hf' with hf' | hf'
      · exact hacc tl htl f' hf'
      · rcases List.mem_singleton.1 hf' with rfl
        exact hf

theorem tracesLineOk_snoc {traces : List Trace} {t : Trace}
    (hacc : tracesLineOk traces) (ht : ∀ f ∈ t.frames, frameLineOk f = true) :
    tracesLineOk (traces ++ [t]) := by
  intro t' ht' f hf
  rcases List.mem_append.1 ht' with h | h
  · exact hacc t' h f hf
  · rcases List.mem_singleton.1 h with rfl
    exact ht f hf

theorem parse_loop_line_ok (fuel : Nat) :
    ∀ (input : List Nat) (pos : Nat) (traces : List Trace)
      (methods : List (Int × Method)) (res : List Trace × List (Int × Method)),
      tracesLineOk traces →
      parse_loop fuel input pos traces methods = .ok res →
      tracesLineOk res.1 := by
  induction fuel with
  | zero =>
    intro input pos traces methods res hacc h
    unfold parse_loop at h
    cases input with
    | nil => injection h with h; rw [← h]; exact hacc
    | cons b rest => exact absurd h (by simp)
  | succ fuel ih =>
    intro input pos traces methods res hacc h
    unfold parse_loop at h
    cases input with
    | nil => injection h with h; rw [← h]; exact hacc
    | cons b rest =>
      simp only at h
      split at h
      · injection h with h; rw [← h]; exact hacc
      split at h
      -- marker 1
      · split at h
        · exact absurd h (by simp)
        · split at h
          · -- frame_count > 0 : open an empty trace
            exact ih _ _ _ _ _ (tracesLineOk_snoc hacc (by intro f hf; simp at hf)) h
          split at h
          · exact absurd h (by simp)
          · -- error-report trace: one synthetic frame with absent line_no
            refine ih _ _ _ _ _ (tracesLineOk_snoc hacc ?_) h
            intro f hf
            rcases List.mem_singleton.1 hf with rfl
            rfl
      split at h
      -- marker 2: frame with absent line_no
      · split at h
        · exact absurd h (by simp)
        · split at h
          · exact absurd h (by simp)
          · rename_i happ
            refine ih _ _ _ _ _ (tracesLineOk_append_frame hacc ?_ happ) h
            rfl
      split at h
      -- marker 21: negative line numbers normalized to absent
      · split at h
        · exact absurd h (by simp)
        · split at h
          · exact absurd h (by simp)
          · rename_i happ
            refine ih _ _ _ _ _ (tracesLineOk_append_frame hacc ?_ happ) h
            simp only [frameLineOk]
            split
            · rfl
            next n heq =>
              split at heq
              · exact absurd heq (by simp)
              next hneg =>
                injection heq with heq
                subst heq
                simp only [decide_eq_true_eq]
                omega
      split at h
      -- marker 3: traces unchanged
      · split at h
        · exact absurd h (by simp)
        · split at h
          · exact absurd h (by simp)
          · split at h
            · exact absurd h (by simp)
            · split at h
              · exact absurd h (by simp)
              · exact ih _ _ _ _ _ hacc h
      -- unexpected marker
      · exact absurd h (by simp)

/-- C9: every frame of every trace returned by a successful `parse_hpl` run
has a line number that is absent or non-negative (marker-2 frames always
store an absent line number; marker-21 frames normalize negative sentinel
values to absent before the frame is appended). -/
theorem parse_hpl_line_no_invariant (input : List Nat)
    (traces : List Trace) (methods : List (Int × Method))
    (h : parse_hpl input = .ok (traces, methods)) :
    ∀ t ∈ traces, ∀ f ∈ t.frames, frameLineOk f = true :=
  parse_loop_line_ok input.length input 0 [] initialMethods (traces, methods)
    (by intro t ht; exact absurd ht (by simp)) h

/-- C9 witness: a stream with one trace and one marker-21 frame whose
`line_no` field holds the sentinel `-100` decodes to a frame with an absent
line number, satisfying the invariant. -/
theorem parse_hpl_line_no_invariant_witness :
    frameLineOk (Frame.mk (some 2) none 9) = true :=
  parse_hpl_line_no_invariant
    ([1, 0, 0, 0, 1] ++ List.replicate 8 0 ++
      [21, 0, 0, 0, 2, 255, 255, 255, 156, 0, 0, 0, 0, 0, 0, 0, 9])
    [Trace.mk 0 1 [Frame.mk (some 2) none 9]] initialMethods (by decide)
    (Trace.mk 0 1 [Frame.mk (some 2) none 9]) (by decide)
    (Frame.mk (some 2) none 9) (by decide)

/-! ### Classification of the per-trace frame loop -/

theorem sumCounts_bump (m : List (String × Nat)) (k : String) :
    sumCounts (bump m k) = sumCounts m + 1 := by
  induction m with
  | nil => simp [bump, sumCounts]
  | cons p rest ih =>
    obtain ⟨k', c⟩ := p
    by_cases h : k' == k
    · simp [bump, h, sumCounts]
      omega
    · simp only [bump, h, Bool.false_eq_true, if_false]
      simp only [sumCounts, List.map_cons, List.sum_cons] at ih ⊢
      omega

theorem frames_loop_skipped_imp (args : Args) (methods : List (Int × Method)) :
    ∀ (fs : List Frame) (n : String),
      frames_loop args methods fs = .skipped n →
      args.skip_trace_on_missing_frame = true ∧
        ∃ f ∈ fs, lookupMethod methods f.method_id = none := by
  intro fs
  induction fs with
  | nil => intro n h; exact absurd h (by simp [frames_loop])
  | cons f fs ih =>
    intro n h
    unfold frames_loop at h
    split at h
    · rename_i hcond
      simp only [Bool.and_eq_true, Option.isNone_iff_eq_none] at hcond
      exact ⟨hcond.1, f, List.mem_cons_self f fs, hcond.2⟩
    · split at h
      · exact absurd h (by simp)
      · split at h
        · exact absurd h (by simp)
        next out hne =>
          obtain ⟨hskip, f', hf', hl⟩ := ih n h
          exact ⟨hskip, f', List.mem_cons_of_mem f hf', hl⟩

theorem frames_loop_ok_imp (args : Args) (methods : List (Int × Method)) :
    ∀ (fs : List Frame) (l : List String),
      frames_loop args methods fs = .ok l →
      ∀ f ∈ fs, lookupMethod methods f.method_id ≠ none := by
  intro fs
  induction fs with
  | nil => intro l _ f hf; exact absurd hf (by simp)
  | cons f fs ih =>
    intro l h g hg
    unfold frames_loop at h
    split at h
    · exact absurd h (by simp)
    · split at h
      · exact absurd h (by simp)
      next m hm =>
        split at h
        next rest heq =>
          rcases List.mem_cons.1 hg with rfl | hg
          · simp [hm]
          · exact ih rest heq g hg
        next out hne =>
          exact (hne l h).elim

theorem frames_loop_ok_of_resolved (args : Args) (methods : List (Int × Method)) :
    ∀ fs : List Frame,
      (∀ f ∈ fs, lookupMethod methods f.method_id ≠ none) →
      ∃ l, frames_loop args methods fs = .ok l := by
  intro fs
  induction fs with
  | nil => intro _; exact ⟨[], rfl⟩
  | cons f fs ih =>
    intro h
    have hf : lookupMethod methods f.method_id ≠ none :=
      h f (List.mem_cons_self f fs)
    obtain ⟨m, hm⟩ := Option.ne_none_iff_exists.1 hf
    obtain ⟨l, hl⟩ := ih (fun g hg => h g (List.mem_cons_of_mem f hg))
    refine ⟨format_frame f m args.discard_lineno args.shorten_pkgs :: l, ?_⟩
    unfold frames_loop
    rw [if_neg, ← hm, hl]
    simp [← hm]

theorem frames_loop_fatal_of_missing (args : Args) (methods : List (Int × Method))
    (hskip : args.skip_trace_on_missing_frame = false) :
    ∀ fs : List Frame,
      (∃ f ∈ fs, lookupMethod methods f.method_id = none) →
      ∃ e, frames_loop args methods fs = .fatal e := by
  intro fs
  induction fs with
  | nil => rintro ⟨f, hf, _⟩; exact absurd hf (by simp)
  | cons f fs ih =>
    rintro ⟨g, hg, hl⟩
    by_cases hf : lookupMethod methods f.method_id = none
    · refine ⟨"KeyError: " ++ toString f.method_id, ?_⟩
      unfold frames_loop
      rw [if_neg (by simp [hskip]), hf]
    · have hg' : g ∈ fs := by
        rcases List.mem_cons.1 hg with rfl | hg'
        · exact absurd hl hf
        · exact hg'
      obtain ⟨m, hm⟩ := Option.ne_none_iff_exists.1 hf
      obtain ⟨e, he⟩ := ih ⟨g, hg', hl⟩
      refine ⟨e, ?_⟩
      unfold frames_loop
      rw [if_neg (by simp [hskip]), ← hm, he]

theorem frames_loop_skipped_of_missing (args : Args) (methods : List (Int × Method))
    (hskip : args.skip_trace_on_missing_frame = true) :
    ∀ (fs : List Frame) (f₀ : Frame),
      fs.find? (fun f => (lookupMethod methods f.method_id).isNone) = some f₀ →
      frames_loop args methods fs = .skipped (missingNotice f₀.method_id) := by
  intro fs
  induction fs with
  | nil => intro f₀ h; exact absurd h (by simp)
  | cons f fs ih =>
    intro f₀ h
    rw [List.find?_cons] at h
    by_cases hf : (lookupMethod methods f.method_id).isNone
    · rw [hf] at h
      have h' : some f = some f₀ := h
      injection h' with h'
      subst h'
      unfold frames_loop
      rw [if_pos (by simp [hskip, hf])]
    · rw [Bool.not_eq_true] at hf
      rw [hf] at h
      have h' : fs.find? (fun f => (lookupMethod methods f.method_id).isNone) = some f₀ := h
      obtain ⟨m, hm⟩ :=
        Option.ne_none_iff_exists.1
          (by simpa [Option.isNone_iff_eq_none] using (by simp [hf] : ¬(lookupMethod methods f.method_id).isNone = true))
      unfold frames_loop
      rw [if_neg (by simp [hf]), ← hm, ih f₀ h']

theorem process_trace_skipped_imp (args : Args) (methods : List (Int × Method))
    (t : Trace) (n : String) (h : process_trace args methods t = .skipped n) :
    traceSkipped args methods t = true := by
  unfold process_trace at h
  split at h
  · exact absurd h (by simp)
  next n' heq =>
    obtain ⟨hskip, f, hf, hl⟩ := frames_loop_skipped_imp args methods t.frames n' heq
    simp only [traceSkipped, hskip, Bool.true_and, List.any_eq_true]
    exact ⟨f, hf, by simp [hl]⟩
  · exact absurd h (by simp)

theorem process_trace_key_imp (args : Args) (methods : List (Int × Method))
    (t : Trace) (k : String) (h : process_trace args methods t = .key k) :
    traceSkipped args methods t = false := by
  unfold process_trace at h
  split at h
  · exact absurd h (by simp)
  · exact absurd h (by simp)
  next l heq =>
    have hres := frames_loop_ok_imp args methods t.frames l heq
    simp only [traceSkipped, Bool.and_eq_false_iff]
    right
    simp only [List.any_eq_false]
    intro f hf
    simp [Option.isNone_iff_eq_none, hres f hf]

theorem length_filter_add {α} (p : α → Bool) (l : List α) :
    (l.filter p).length + (l.filter (fun a => !p a)).length = l.length := by
  induction l with
  | nil => simp
  | cons a l ih =>
    by_cases h : p a <;> simp [List.filter_cons, h] <;> omega

theorem run_traces_sum (args : Args) (methods : List (Int × Method)) :
    ∀ (ts : List Trace) (m : List (String × Nat)) (ns : List String)
      (m' : List (String × Nat)) (ns' : List String),
      run_traces args methods ts m ns = .ok (m', ns') →
      sumCounts m' =
        sumCounts m + (ts.filter (fun t => !traceSkipped args methods t)).length := by
  intro ts
  induction ts with
  | nil =>
    intro m ns m' ns' h
    simp only [run_traces, Except.ok.injEq, Prod.mk.injEq] at h
    obtain ⟨⟨rfl, rfl⟩⟩ := h
    simp
  | cons t ts ih =>
    intro m ns m' ns' h
    unfold run_traces at h
    split at h
    · exact absurd h (by simp)
    next n heq =>
      have hskip := process_trace_skipped_imp args methods t n heq
      have := ih _ _ _ _ h
      simp only [List.filter_cons, hskip, Bool.not_true, List.length_cons]
      exact this
    next k heq =>
      have hkeep := process_trace_key_imp args methods t k heq
      have := ih _ _ _ _ h
      rw [sumCounts_bump] at this
      simp [List.filter_cons, hkeep]
      omega

/-! ### C1: sample conservation -/

/-- C1: for any decoded input (any trace list and Method table) and options,
when the fold succeeds the sample counts over the emitted (sorted) lines sum
to the number of traces minus the number of traces discarded by the skip
option: each kept trace increments exactly one folded-stack key by one. -/
theorem hpl_fold_sample_conservation (args : Args) (methods : List (Int × Method))
    (traces : List Trace) (m : List (String × Nat)) (ns : List String)
    (h : main_fold args methods traces = .ok (m, ns)) :
    sumCounts (output_pairs m) =
      traces.length - (traces.filter (traceSkipped args methods)).length := by
  have hsum := run_traces_sum args methods traces [] [] m ns h
  have hperm : sumCounts (output_pairs m) = sumCounts m := by
    unfold output_pairs sumCounts
    exact ((List.mergeSort_perm m _).map Prod.snd).sum_eq
  have hf := length_filter_add (traceSkipped args methods) traces
  rw [show sumCounts ([] : List (String × Nat)) = 0 from rfl, Nat.zero_add] at hsum
  omega

/-- C1 witness: two traces, one discarded by the missing-frame skip option;
the emitted counts sum to `2 - 1`. -/
theorem hpl_fold_sample_conservation_witness :
    sumCounts (output_pairs [("Thread 7;Foo.bar", 1)]) =
      ([Trace.mk 7 1 [Frame.mk (some 0) none 5],
        Trace.mk 7 1 [Frame.mk (some 0) none 9]] : List Trace).length -
      (([Trace.mk 7 1 [Frame.mk (some 0) none 5],
         Trace.mk 7 1 [Frame.mk (some 0) none 9]] : List Trace).filter
        (traceSkipped ⟨false, false, false, true⟩
          [(9, Method.mk 9 "AB" "LFoo;" "bar")])).length :=
  hpl_fold_sample_conservation ⟨false, false, false, true⟩
    [(9, Method.mk 9 "AB" "LFoo;" "bar")]
    [Trace.mk 7 1 [Frame.mk (some 0) none 5],
     Trace.mk 7 1 [Frame.mk (some 0) none 9]]
    [("Thread 7;Foo.bar", 1)] ["skipped missing frame 5"] (by decide)

/-! ### C6: missing-frame policy -/

theorem foldKeys_nil (step : Trace → TraceOut) (m : List (String × Nat)) :
    foldKeys step [] m = m := rfl

theorem foldKeys_cons (step : Trace → TraceOut) (t : Trace) (ts : List Trace)
    (m : List (String × Nat)) :
    foldKeys step (t :: ts) m =
      foldKeys step ts
        (match step t with
         | .key k => bump m k
         | _ => m) := rfl

theorem find?_none_of_not_skipped (args : Args) (methods : List (Int × Method))
    (hskip : args.skip_trace_on_missing_frame = true) (t : Trace)
    (hsk : traceSkipped args methods t = false) :
    t.frames.find? (fun f => (lookupMethod methods f.method_id).isNone) = none := by
  rw [List.find?_eq_none]
  intro f hf
  simp only [traceSkipped, hskip, Bool.true_and, List.any_eq_false] at hsk
  simpa using hsk f hf

theorem process_trace_skip_spec (args : Args) (methods : List (Int × Method))
    (hskip : args.skip_trace_on_missing_frame = true) (t : Trace) :
    (traceSkipped args methods t = true →
      ∃ f₀, t.frames.find? (fun f => (lookupMethod methods f.method_id).isNone) = some f₀ ∧
        process_trace args methods t = .skipped (missingNotice f₀.method_id)) ∧
    (traceSkipped args methods t = false →
      ∃ k, process_trace args methods t = .key k) := by
  constructor
  · intro hsk
    simp only [traceSkipped, hskip, Bool.true_and, List.any_eq_true] at hsk
    have hfind : (t.frames.find? (fun f => (lookupMethod methods f.method_id).isNone)).isSome := by
      rw [List.find?_isSome]
      exact hsk
    obtain ⟨f₀, hf₀⟩ := Option.isSome_iff_exists.1 hfind
    refine ⟨f₀, hf₀, ?_⟩
    have := frames_loop_skipped_of_missing args methods hskip t.frames f₀ hf₀
    unfold process_trace
    rw [this]
  · intro hsk
    simp only [traceSkipped, hskip, Bool.true_and, List.any_eq_false] at hsk
    obtain ⟨l, hl⟩ := frames_loop_ok_of_resolved args methods t.frames
      (fun f hf => by simpa [Option.isNone_iff_eq_none] using hsk f hf)
    refine ⟨joinWith ';'
      ((if !args.discard_thread then l ++ ["Thread " ++ toString t.thread_id]
        else l).reverse), ?_⟩
    unfold process_trace
    rw [hl]

theorem run_traces_skip_true (args : Args) (methods : List (Int × Method))
    (hskip : args.skip_trace_on_missing_frame = true) :
    ∀ (ts : List Trace) (m : List (String × Nat)) (ns : List String),
      run_traces args methods ts m ns =
        .ok (foldKeys (process_trace args methods) ts m,
          ns ++ missingNotices methods ts) := by
  intro ts
  induction ts with
  | nil => intro m ns; simp [run_traces, foldKeys, missingNotices]
  | cons t ts ih =>
    intro m ns
    by_cases hsk : traceSkipped args methods t = true
    · obtain ⟨f₀, hfind, hp⟩ := (process_trace_skip_spec args methods hskip t).1 hsk
      have h1 : foldKeys (process_trace args methods) (t :: ts) m =
          foldKeys (process_trace args methods) ts m := by
        rw [foldKeys_cons, hp]
      have h2 : missingNotices methods (t :: ts) =
          missingNotice f₀.method_id :: missingNotices methods ts := by
        unfold missingNotices
        rw [List.filterMap_cons, hfind]
        rfl
      unfold run_traces
      rw [hp]
      simp only
      rw [ih, h1, h2]
      simp
    · obtain ⟨k, hp⟩ :=
        (process_trace_skip_spec args methods hskip t).2 (by simpa using hsk)
      have hfind := find?_none_of_not_skipped args methods hskip t (by simpa using hsk)
      have h1 : foldKeys (process_trace args methods) (t :: ts) m =
          foldKeys (process_trace args methods) ts (bump m k) := by
        rw [foldKeys_cons, hp]
      have h2 : missingNotices methods (t :: ts) = missingNotices methods ts := by
        unfold missingNotices
        rw [List.filterMap_cons, hfind]
        rfl
      unfold run_traces
      rw [hp]
      simp only
      rw [ih, h1, h2]

theorem foldKeys_filter (args : Args) (methods : List (Int × Method))
    (hskip : args.skip_trace_on_missing_frame = true) :
    ∀ (ts : List Trace) (m : List (String × Nat)),
      foldKeys (process_trace args methods)
        (ts.filter (fun t => !traceSkipped args methods t)) m =
      foldKeys (process_trace args methods) ts m := by
  intro ts
  induction ts with
  | nil => intro m; rfl
  | cons t ts ih =>
    intro m
    by_cases hsk : traceSkipped args methods t = true
    · obtain ⟨f₀, _, hp⟩ := (process_trace_skip_spec args methods hskip t).1 hsk
      have h1 : foldKeys (process_trace args methods) (t :: ts) m =
          foldKeys (process_trace args methods) ts m := by
        rw [foldKeys_cons, hp]
      rw [List.filter_cons]
      simp only [hsk, Bool.not_true, Bool.false_eq_true, if_false]
      rw [ih, h1]
    · obtain ⟨k, hp⟩ :=
        (process_trace_skip_spec args methods hskip t).2 (by simpa using hsk)
      have h1 : foldKeys (process_trace args methods) (t :: ts) m =
          foldKeys (process_trace args methods) ts (bump m k) := by
        rw [foldKeys_cons, hp]
      rw [List.filter_cons]
      simp only [hsk, Bool.not_false, if_true]
      rw [foldKeys_cons, hp]
      simp only
      rw [ih, h1]

theorem missingNotices_filter (args : Args) (methods : List (Int × Method)) :
    ∀ ts : List Trace,
      missingNotices methods (ts.filter (fun t => !traceSkipped args methods t)) = [] ∨
      args.skip_trace_on_missing_frame = false := by
  intro ts
  by_cases hskip : args.skip_trace_on_missing_frame = true
  · left
    induction ts with
    | nil => rfl
    | cons t ts ih =>
      rw [List.filter_cons]
      by_cases hsk : traceSkipped args methods t = true
      · simpa [hsk] using ih
      · have hfind := find?_none_of_not_skipped args methods hskip t (by simpa using hsk)
        simp only [hsk, Bool.not_false, if_true]
        unfold missingNotices at ih ⊢
        simpa [List.filterMap_cons, hfind] using ih
  · right
    simpa using hskip

theorem run_traces_fatal (args : Args) (methods : List (Int × Method))
    (hskip : args.skip_trace_on_missing_frame = false) :
    ∀ (ts : List Trace) (m : List (String × Nat)) (ns : List String),
      (∃ t ∈ ts, ∃ f ∈ t.frames, lookupMethod methods f.method_id = none) →
      ∃ e, run_traces args methods ts m ns = .error e := by
  intro ts
  induction ts with
  | nil => rintro m ns ⟨t, ht, _⟩; exact absurd ht (by simp)
  | cons t ts ih =>
    rintro m ns ⟨t', ht', hf⟩
    by_cases hmiss : ∃ f ∈ t.frames, lookupMethod methods f.method_id = none
    · obtain ⟨e, he⟩ := frames_loop_fatal_of_missing args methods hskip t.frames hmiss
      refine ⟨e, ?_⟩
      unfold run_traces process_trace
      rw [he]
    · have ht'' : t' ∈ ts := by
        rcases List.mem_cons.1 ht' with rfl | h
        · exact absurd hf hmiss
        · exact h
      have hres : ∀ f ∈ t.frames, lookupMethod methods f.method_id ≠ none := by
        intro f hf hn
        exact hmiss ⟨f, hf, hn⟩
      obtain ⟨l, hl⟩ := frames_loop_ok_of_resolved args methods t.frames hres
      obtain ⟨e, he⟩ := ih (bump m (joinWith ';'
        ((if !args.discard_thread then l ++ ["Thread " ++ toString t.thread_id] else l).reverse)))
        ns ⟨t', ht'', hf⟩
      refine ⟨e, ?_⟩
      unfold run_traces process_trace
      rw [hl]
      simpa using he

/-- C6: a frame whose method id is absent from the Method table is fatal for
the whole run when `--skip-trace-on-missing-frame` is unset; when it is set,
the run succeeds, each trace with a missing frame is discarded with a
diagnostic notice (one `skipped missing frame <id>` notice per such trace,
for its first missing frame), and the aggregation map equals that of a run
over the same input with the offending traces removed (which produces no
notices). -/
theorem hpl_missing_frame_policy (args : Args) (methods : List (Int × Method))
    (traces : List Trace) :
    (args.skip_trace_on_missing_frame = false →
      (∃ t ∈ traces, ∃ f ∈ t.frames, lookupMethod methods f.method_id = none) →
      ∃ e, main_fold args methods traces = .error e) ∧
    (args.skip_trace_on_missing_frame = true →
      ∃ m, main_fold args methods traces = .ok (m, missingNotices methods traces) ∧
        main_fold args methods
          (traces.filter (fun t => !traceSkipped args methods t)) = .ok (m, [])) := by
  constructor
  · intro hskip hex
    exact run_traces_fatal args methods hskip traces [] [] hex
  · intro hskip
    refine ⟨foldKeys (process_trace args methods) traces [], ?_, ?_⟩
    · have := run_traces_skip_true args methods hskip traces [] []
      simpa [main_fold] using this
    · have := run_traces_skip_true args methods hskip
        (traces.filter (fun t => !traceSkipped args methods t)) [] []
      rw [foldKeys_filter args methods hskip] at this
      rcases missingNotices_filter args methods traces with hnil | hfalse
      · rw [hnil] at this
        simpa [main_fold] using this
      · exact absurd hskip (by simp [hfalse])

/-- C6 witness: with the skip option set, a run over one resolvable and one
missing-method trace succeeds, notices the missing frame, and aggregates
like the run without the offending trace. -/
theorem hpl_missing_frame_policy_witness :
    ∃ m, main_fold ⟨false, false, false, true⟩ [(9, Method.mk 9 "AB" "LFoo;" "bar")]
        [Trace.mk 7 1 [Frame.mk (some 0) none 5],
         Trace.mk 7 1 [Frame.mk (some 0) none 9]] =
      .ok (m, missingNotices [(9, Method.mk 9 "AB" "LFoo;" "bar")]
        [Trace.mk 7 1 [Frame.mk (some 0) none 5],
         Trace.mk 7 1 [Frame.mk (some 0) none 9]]) ∧
      main_fold ⟨false, false, false, true⟩ [(9, Method.mk 9 "AB" "LFoo;" "bar")]
        (([Trace.mk 7 1 [Frame.mk (some 0) none 5],
           Trace.mk 7 1 [Frame.mk (some 0) none 9]] : List Trace).filter
          (fun t => !traceSkipped ⟨false, false, false, true⟩
            [(9, Method.mk 9 "AB" "LFoo;" "bar")] t)) = .ok (m, []) :=
  (hpl_missing_frame_policy ⟨false, false, false, true⟩
    [(9, Method.mk 9 "AB" "LFoo;" "bar")]
    [Trace.mk 7 1 [Frame.mk (some 0) none 5],
     Trace.mk 7 1 [Frame.mk (some 0) none 9]]).2 rfl

/-! ### C2: the `skip_sleep_frames` option (spec-modelled) -/


theorem frames_loop_ext_sleep (args : Args) (methods : List (Int × Method)) :
    ∀ fs : List Frame,
      (∀ f ∈ fs, lookupMethod methods f.method_id ≠ none) →
      fs.any (isSleepFrame args methods) = true →
      frames_loop_ext args true methods fs = .skipped sleepNotice := by
  intro fs
  induction fs with
  | nil => intro _ h; simp at h
  | cons f fs ih =>
    intro hres hany
    have hf : lookupMethod methods f.method_id ≠ none :=
      hres f (List.mem_cons_self f fs)
    obtain ⟨m, hm⟩ := Option.ne_none_iff_exists.1 hf
    unfold frames_loop_ext
    rw [if_neg (by simp [← hm]), ← hm]
    by_cases hs : isSleepFrame args methods f = true
    · simp only [isSleepFrame, ← hm] at hs
      simp [hs]
    · have hany' : fs.any (isSleepFrame args methods) = true := by
        rcases List.any_eq_true.1 hany with ⟨g, hg, hsg⟩
        rcases List.mem_cons.1 hg with rfl | hg'
        · exact absurd hsg hs
        · exact List.any_eq_true.2 ⟨g, hg', hsg⟩
      rw [ih (fun g hg => hres g (List.mem_cons_of_mem f hg)) hany']
      simp only [isSleepFrame, ← hm] at hs
      have hs' : (format_frame f m true args.shorten_pkgs == sleepName) = false := by
        simpa using hs
      simp [hs']

theorem frames_loop_ext_no_sleep (args : Args) (methods : List (Int × Method)) :
    ∀ fs : List Frame,
      (∀ f ∈ fs, lookupMethod methods f.method_id ≠ none) →
      fs.any (isSleepFrame args methods) = false →
      frames_loop_ext args true methods fs = frames_loop args methods fs := by
  intro fs
  induction fs with
  | nil => intro _ _; rfl
  | cons f fs ih =>
    intro hres hany
    have hf : lookupMethod methods f.method_id ≠ none :=
      hres f (List.mem_cons_self f fs)
    obtain ⟨m, hm⟩ := Option.ne_none_iff_exists.1 hf
    simp only [List.any_cons, Bool.or_eq_false_iff] at hany
    unfold frames_loop_ext frames_loop
    rw [← hm]
    have hs' : (format_frame f m true args.shorten_pkgs == sleepName) = false := by
      have := hany.1
      simp only [isSleepFrame, ← hm] at this
      simpa using this
    rw [ih (fun g hg => hres g (List.mem_cons_of_mem f hg)) hany.2]
    simp [hs']

theorem process_trace_ext_spec (args : Args) (methods : List (Int × Method))
    (t : Trace) (hres : ∀ f ∈ t.frames, lookupMethod methods f.method_id ≠ none) :
    (hasSleepFrame args methods t = true →
      process_trace_ext args true methods t = .skipped sleepNotice) ∧
    (hasSleepFrame args methods t = false →
      process_trace_ext args true methods t = process_trace args methods t ∧
        ∃ k, process_trace args methods t = .key k) := by
  constructor
  · intro hs
    unfold process_trace_ext
    rw [frames_loop_ext_sleep args methods t.frames hres hs]
  · intro hs
    constructor
    · unfold process_trace_ext process_trace
      rw [frames_loop_ext_no_sleep args methods t.frames hres hs]
    · obtain ⟨l, hl⟩ := frames_loop_ok_of_resolved args methods t.frames hres
      refine ⟨joinWith ';'
        ((if !args.discard_thread then l ++ ["Thread " ++ toString t.thread_id]
          else l).reverse), ?_⟩
      unfold process_trace
      rw [hl]

theorem run_traces_ext_sleep (args : Args) (methods : List (Int × Method)) :
    ∀ ts : List Trace,
      (∀ t ∈ ts, ∀ f ∈ t.frames, lookupMethod methods f.method_id ≠ none) →
      ∀ (m : List (String × Nat)) (ns : List String),
        run_traces_ext args true methods ts m ns =
          .ok (foldKeys (process_trace_ext args true methods) ts m,
            ns ++ sleepNotices args methods ts) := by
  intro ts
  induction ts with
  | nil => intro _ m ns; simp [run_traces_ext, foldKeys, sleepNotices]
  | cons t ts ih =>
    intro hres m ns
    have hrest := fun t' ht' => hres t' (List.mem_cons_of_mem t ht')
    have hrt := hres t (List.mem_cons_self t ts)
    by_cases hs : hasSleepFrame args methods t = true
    · have hp := (process_trace_ext_spec args methods t hrt).1 hs
      have h2 : sleepNotices args methods (t :: ts) =
          sleepNotice :: sleepNotices args methods ts := by
        unfold sleepNotices
        rw [List.filterMap_cons]
        simp [hs]
      unfold run_traces_ext
      rw [hp]
      simp only
      rw [ih hrest, foldKeys_cons, hp, h2]
      simp
    · obtain ⟨hpe, k, hk⟩ := (process_trace_ext_spec args methods t hrt).2
        (by simpa using hs)
      have h2 : sleepNotices args methods (t :: ts) = sleepNotices args methods ts := by
        unfold sleepNotices
        rw [List.filterMap_cons]
        simp [hs]
      unfold run_traces_ext
      rw [hpe, hk]
      simp only
      rw [ih hrest, foldKeys_cons, hpe, hk, h2]

theorem run_traces_resolved (args : Args) (methods : List (Int × Method)) :
    ∀ ts : List Trace,
      (∀ t ∈ ts, ∀ f ∈ t.frames, lookupMethod methods f.method_id ≠ none) →
      ∀ (m : List (String × Nat)) (ns : List String),
        run_traces args methods ts m ns =
          .ok (foldKeys (process_trace args methods) ts m, ns) := by
  intro ts
  induction ts with
  | nil => intro _ m ns; simp [run_traces, foldKeys]
  | cons t ts ih =>
    intro hres m ns
    have hrest := fun t' ht' => hres t' (List.mem_cons_of_mem t ht')
    have hrt := hres t (List.mem_cons_self t ts)
    obtain ⟨l, hl⟩ := frames_loop_ok_of_resolved args methods t.frames hrt
    have hk : process_trace args methods t = .key (joinWith ';'
        ((if !args.discard_thread then l ++ ["Thread " ++ toString t.thread_id]
          else l).reverse)) := by
      unfold process_trace
      rw [hl]
    unfold run_traces
    rw [hk]
    simp only
    rw [ih hrest, foldKeys_cons, hk]

theorem foldKeys_ext_filter (args : Args) (methods : List (Int × Method)) :
    ∀ ts : List Trace,
      (∀ t ∈ ts, ∀ f ∈ t.frames, lookupMethod methods f.method_id ≠ none) →
      ∀ m : List (String × Nat),
        foldKeys (process_trace_ext args true methods) ts m =
          foldKeys (process_trace args methods)
            (ts.filter (fun t => !hasSleepFrame args methods t)) m := by
  intro ts
  induction ts with
  | nil => intro _ m; rfl
  | cons t ts ih =>
    intro hres m
    have hrest := fun t' ht' => hres t' (List.mem_cons_of_mem t ht')
    have hrt := hres t (List.mem_cons_self t ts)
    by_cases hs : hasSleepFrame args methods t = true
    · have hp := (process_trace_ext_spec args methods t hrt).1 hs
      rw [foldKeys_cons, hp, List.filter_cons]
      simp only [hs, Bool.not_true, Bool.false_eq_true, if_false]
      exact ih hrest m
    · obtain ⟨hpe, k, hk⟩ := (process_trace_ext_spec args methods t hrt).2
        (by simpa using hs)
      rw [foldKeys_cons, hpe, hk, List.filter_cons]
      simp only [hs, Bool.not_false, if_true]
      rw [foldKeys_cons, hk]
      exact ih hrest (bump m k)

/-- C2 (spec-modelled): in the extended HPL folder, with `skip_sleep_frames`
set and every method id resolvable, each trace with a frame whose resolved,
line-number-free formatted name equals `java.lang.Thread.sleep` is discarded
with a diagnostic notice and contributes nothing to the aggregation map,
while the remaining traces aggregate exactly as a plain run over the input
without the sleep traces (which produces no notices). -/
theorem hpl_skip_sleep_frames (args : Args) (methods : List (Int × Method))
    (traces : List Trace)
    (hres : ∀ t ∈ traces, ∀ f ∈ t.frames, lookupMethod methods f.method_id ≠ none) :
    ∃ m, main_fold_ext args true methods traces =
        .ok (m, sleepNotices args methods traces) ∧
      main_fold args methods
        (traces.filter (fun t => !hasSleepFrame args methods t)) = .ok (m, []) := by
  refine ⟨foldKeys (process_trace_ext args true methods) traces [], ?_, ?_⟩
  · have := run_traces_ext_sleep args methods traces hres [] []
    simpa [main_fold_ext] using this
  · have hres' : ∀ t ∈ traces.filter (fun t => !hasSleepFrame args methods t),
        ∀ f ∈ t.frames, lookupMethod methods f.method_id ≠ none :=
      fun t ht => hres t (List.mem_of_mem_filter ht)
    have := run_traces_resolved args methods
      (traces.filter (fun t => !hasSleepFrame args methods t)) hres' [] []
    rw [← foldKeys_ext_filter args methods traces hres] at this
    exact this

/-- C2 witness: a trace whose only frame resolves to
`java.lang.Thread.sleep` is discarded with a notice; the other trace folds
exactly as in the run without the sleep trace. -/
theorem hpl_skip_sleep_frames_witness :
    ∃ m, main_fold_ext ⟨false, false, false, false⟩ true
        [(1, Method.mk 1 "Thread.java" "Ljava/lang/Thread;" "sleep"),
         (9, Method.mk 9 "AB" "LFoo;" "bar")]
        [Trace.mk 7 1 [Frame.mk (some 0) none 1],
         Trace.mk 8 1 [Frame.mk (some 0) none 9]] =
      .ok (m, sleepNotices ⟨false, false, false, false⟩
        [(1, Method.mk 1 "Thread.java" "Ljava/lang/Thread;" "sleep"),
         (9, Method.mk 9 "AB" "LFoo;" "bar")]
        [Trace.mk 7 1 [Frame.mk (some 0) none 1],
         Trace.mk 8 1 [Frame.mk (some 0) none 9]]) ∧
      main_fold ⟨false, false, false, false⟩
        [(1, Method.mk 1 "Thread.java" "Ljava/lang/Thread;" "sleep"),
         (9, Method.mk 9 "AB" "LFoo;" "bar")]
        (([Trace.mk 7 1 [Frame.mk (some 0) none 1],
           Trace.mk 8 1 [Frame.mk (some 0) none 9]] : List Trace).filter
          (fun t => !hasSleepFrame ⟨false, false, false, false⟩
            [(1, Method.mk 1 "Thread.java" "Ljava/lang/Thread;" "sleep"),
             (9, Method.mk 9 "AB" "LFoo;" "bar")] t)) = .ok (m, []) :=
  hpl_skip_sleep_frames ⟨false, false, false, false⟩
    [(1, Method.mk 1 "Thread.java" "Ljava/lang/Thread;" "sleep"),
     (9, Method.mk 9 "AB" "LFoo;" "bar")]
    [Trace.mk 7 1 [Frame.mk (some 0) none 1],
     Trace.mk 8 1 [Frame.mk (some 0) none 9]] (by decide)

/-! ### C8: package abbreviation -/

theorem collapseWordRuns_nil : collapseWordRuns [] = [] := by
  simp [collapseWordRuns]

theorem collapseWordRuns_cons (c : Char) (rest : List Char) :
    collapseWordRuns (c :: rest) =
      if isWordChar c then c :: collapseWordRuns (rest.dropWhile isWordChar)
      else c :: collapseWordRuns rest := by
  rw [collapseWordRuns]

theorem splitOnChar_ne_nil (sep : Char) (l : List Char) :
    splitOnChar sep l ≠ [] := by
  cases l with
  | nil => simp [splitOnChar]
  | cons c rest =>
    simp only [splitOnChar]
    by_cases h : (c == sep) = true
    · simp [h]
    · simp only [h, Bool.false_eq_true, if_false]
      split <;> simp

theorem splitOnChar_no_sep (sep : Char) (g : List Char) (hg : sep ∉ g) :
    splitOnChar sep g = [g] := by
  induction g with
  | nil => rfl
  | cons c g ih =>
    have hc : (c == sep) = false := by
      simp only [beq_eq_false_iff_ne, ne_eq]
      rintro rfl
      exact hg (List.mem_cons_self c g)
    have hr := ih (fun h => hg (List.mem_cons_of_mem c h))
    simp only [splitOnChar, hc, Bool.false_eq_true, if_false, hr]

theorem splitOnChar_append_cons (sep : Char) (g rest : List Char) (hg : sep ∉ g) :
    splitOnChar sep (g ++ sep :: rest) = g :: splitOnChar sep rest := by
  induction g with
  | nil =>
    show splitOnChar sep (sep :: rest) = [] :: splitOnChar sep rest
    simp [splitOnChar]
  | cons c g ih =>
    have hc : (c == sep) = false := by
      simp only [beq_eq_false_iff_ne, ne_eq]
      rintro rfl
      exact hg (List.mem_cons_self c g)
    have hr := ih (fun h => hg (List.mem_cons_of_mem c h))
    show splitOnChar sep (c :: (g ++ sep :: rest)) = _
    simp only [splitOnChar, hc, Bool.false_eq_true, if_false, hr]

theorem splitOnChar_intercalate (sep : Char) :
    ∀ parts : List (List Char), parts ≠ [] → (∀ p ∈ parts, sep ∉ p) →
      splitOnChar sep (intercalateChar sep parts) = parts := by
  intro parts
  induction parts with
  | nil => intro h; exact absurd rfl h
  | cons p parts ih =>
    intro _ hsep
    cases parts with
    | nil =>
      show splitOnChar sep (intercalateChar sep [p]) = [p]
      exact splitOnChar_no_sep sep p (hsep p (List.mem_cons_self p []))
    | cons q parts' =>
      show splitOnChar sep (p ++ sep :: intercalateChar sep (q :: parts')) = _
      rw [splitOnChar_append_cons sep p _ (hsep p (List.mem_cons_self p _)),
        ih (by simp) (fun r hr => hsep r (List.mem_cons_of_mem p hr))]

theorem dropWhile_append_all (p : Char → Bool) (s t : List Char)
    (hs : ∀ c ∈ s, p c = true) :
    (s ++ t).dropWhile p = t.dropWhile p := by
  induction s with
  | nil => rfl
  | cons c s ih =>
    have hc := hs c (List.mem_cons_self c s)
    simp only [List.cons_append, List.dropWhile_cons, hc, if_true]
    exact ih (fun d hd => hs d (List.mem_cons_of_mem c hd))

theorem collapseWordRuns_word_front (s t : List Char) (hs : s ≠ [])
    (hw : ∀ c ∈ s, isWordChar c = true) (ht : t.dropWhile isWordChar = t) :
    collapseWordRuns (s ++ t) = s.take 1 ++ collapseWordRuns t := by
  cases s with
  | nil => exact absurd rfl hs
  | cons c s' =>
    have hc := hw c (List.mem_cons_self c s')
    show collapseWordRuns (c :: (s' ++ t)) = [c] ++ collapseWordRuns t
    rw [collapseWordRuns_cons]
    simp only [hc, if_true]
    rw [dropWhile_append_all isWordChar s' t
      (fun d hd => hw d (List.mem_cons_of_mem c hd)), ht]
    rfl

theorem isWordChar_dot : isWordChar '.' = false := by decide

theorem collapseWordRuns_package :
    ∀ segs : List (List Char),
      (∀ s ∈ segs, s ≠ [] ∧ ∀ c ∈ s, isWordChar c = true) →
      collapseWordRuns (intercalateChar '.' segs ++ ['.']) =
        intercalateChar '.' (segs.map (List.take 1)) ++ ['.'] := by
  intro segs
  induction segs with
  | nil =>
    intro _
    show collapseWordRuns ['.'] = ['.']
    rw [collapseWordRuns_cons]
    simp [isWordChar_dot, collapseWordRuns_nil]
  | cons s segs ih =>
    intro hyp
    obtain ⟨hne, hword⟩ := hyp s (List.mem_cons_self s segs)
    cases segs with
    | nil =>
      show collapseWordRuns (s ++ ['.']) = s.take 1 ++ ['.']
      rw [collapseWordRuns_word_front s ['.'] hne hword
        (by simp [List.dropWhile, isWordChar_dot])]
      congr 1
      rw [collapseWordRuns_cons]
      simp [isWordChar_dot, collapseWordRuns_nil]
    | cons q segs' =>
      have step : intercalateChar '.' (s :: q :: segs') ++ ['.'] =
          s ++ '.' :: (intercalateChar '.' (q :: segs') ++ ['.']) := by
        show (s ++ '.' :: intercalateChar '.' (q :: segs')) ++ ['.'] = _
        simp [List.append_assoc]
      rw [step,
        collapseWordRuns_word_front s _ hne hword
          (by simp [List.dropWhile, isWordChar_dot]),
        collapseWordRuns_cons]
      simp only [isWordChar_dot, Bool.false_eq_true, if_false]
      rw [ih (fun r hr => hyp r (List.mem_cons_of_mem s hr))]
      show _ = (List.take 1 s ++ '.' ::
        intercalateChar '.' ((q :: segs').map (List.take 1))) ++ ['.']
      simp [List.append_assoc]

theorem intercalateChar_append_two (sep : Char) :
    ∀ (xs : List (List Char)) (y z : List Char), xs ≠ [] →
      intercalateChar sep (xs ++ [y, z]) =
        intercalateChar sep xs ++ sep :: (y ++ sep :: z) := by
  intro xs
  induction xs with
  | nil => intro y z h; exact absurd rfl h
  | cons x xs ih =>
    intro y z _
    cases xs with
    | nil => rfl
    | cons x' xs' =>
      show x ++ sep :: intercalateChar sep ((x' :: xs') ++ [y, z]) = _
      rw [ih y z (by simp)]
      show _ = (x ++ sep :: intercalateChar sep (x' :: xs')) ++ sep :: (y ++ sep :: z)
      simp [List.append_assoc]

theorem splitOnChar_length (sep : Char) :
    ∀ l : List Char, (splitOnChar sep l).length = l.count sep + 1 := by
  intro l
  induction l with
  | nil => rfl
  | cons c rest ih =>
    simp only [splitOnChar]
    by_cases hc : (c == sep) = true
    · rw [if_pos hc]
      simp only [List.length_cons, ih]
      simp [List.count_cons, hc]
    · rw [if_neg (by simp [hc])]
      obtain ⟨g, gs, hgs⟩ := List.exists_cons_of_ne_nil (splitOnChar_ne_nil sep rest)
      rw [hgs]
      rw [hgs] at ih
      simp only [List.length_cons] at ih ⊢
      have hc' : (c == sep) = false := by simpa using hc
      simp [List.count_cons, hc', ih]

/-- C8: package abbreviation is a pure function on strings. For an input of
the form `<pkg1>.….<pkgK>.<Class>.<member>` with word-character package
segments and dot-free, non-empty final segments, every package segment
collapses to its first character while the final two segments are untouched;
an input with fewer than two dots (no package prefix followed by two
trailing segments, e.g. `Class.method`) is returned unchanged. -/
theorem abbreviate_package_spec :
    (∀ (ss : List String) (c m : String),
      ss ≠ [] →
      (∀ s ∈ ss, s.data ≠ [] ∧ ∀ ch ∈ s.data, isWordChar ch = true) →
      c.data ≠ [] → '.' ∉ c.data →
      m.data ≠ [] → '.' ∉ m.data →
      abbreviate_package (joinDot (ss ++ [c, m])) =
        joinDot (ss.map strTake1 ++ [c, m])) ∧
    (∀ s : String, s.data.count '.' < 2 → abbreviate_package s = s) := by
  constructor
  · intro ss c m hss hword hc hcdot hm hmdot
    have hdata : (joinDot (ss ++ [c, m])).data =
        intercalateChar '.' (ss.map String.data ++ [c.data, m.data]) := by
      simp [joinDot, strOfList]
    have hnodot : ∀ p ∈ ss.map String.data ++ [c.data, m.data], '.' ∉ p := by
      intro p hp
      rcases List.mem_append.1 hp with hp | hp
      · obtain ⟨s, hs, rfl⟩ := List.mem_map.1 hp
        intro hdot
        have := (hword s hs).2 '.' hdot
        rw [isWordChar_dot] at this
        exact absurd this (by simp)
      · rcases List.mem_cons.1 hp with rfl | hp
        · exact hcdot
        · rcases List.mem_cons.1 hp with rfl | hp
          · exact hmdot
          · exact absurd hp (by simp)
    have hsplit : splitOnChar '.' (joinDot (ss ++ [c, m])).data =
        ss.map String.data ++ [c.data, m.data] := by
      rw [hdata]
      exact splitOnChar_intercalate '.' _ (by simp) hnodot
    have hmapne : (ss.map String.data).reverse ≠ [] := by
      simp only [ne_eq, List.reverse_eq_nil_iff, List.map_eq_nil_iff]
      exact hss
    obtain ⟨p, ps, hpps⟩ := List.exists_cons_of_ne_nil hmapne
    have hrev : (splitOnChar '.' (joinDot (ss ++ [c, m])).data).reverse =
        m.data :: c.data :: p :: ps := by
      rw [hsplit]
      simp [hpps]
    unfold abbreviate_package
    rw [hrev]
    simp only
    rw [if_neg (by simp [List.isEmpty_iff, hm, hc])]
    have hback : (p :: ps).reverse = ss.map String.data := by
      rw [← hpps, List.reverse_reverse]
    rw [hback]
    have hcollapse := collapseWordRuns_package (ss.map String.data)
      (by
        intro s hs
        obtain ⟨s', hs', rfl⟩ := List.mem_map.1 hs
        exact hword s' hs')
    rw [hcollapse]
    have hmap : (ss.map String.data).map (List.take 1) =
        (ss.map strTake1).map String.data := by
      simp only [List.map_map]
      rfl
    have hrhs : (joinDot (ss.map strTake1 ++ [c, m])).data =
        intercalateChar '.' ((ss.map strTake1).map String.data) ++
          '.' :: (c.data ++ '.' :: m.data) := by
      simp only [joinDot, strOfList, List.map_append]
      exact intercalateChar_append_two '.' _ c.data m.data (by simpa using hss)
    apply String.ext
    rw [hrhs]
    show intercalateChar '.' ((ss.map String.data).map (List.take 1)) ++ ['.']
        ++ c.data ++ '.' :: m.data = _
    rw [hmap]
    simp [List.append_assoc]
  · intro s hcount
    have hlen : (splitOnChar '.' s.data).length < 3 := by
      rw [splitOnChar_length]
      omega
    have hlenrev : ((splitOnChar '.' s.data).reverse).length < 3 := by
      simpa using hlen
    unfold abbreviate_package
    cases hr : (splitOnChar '.' s.data).reverse with
    | nil => rfl
    | cons a l =>
      cases l with
      | nil => rfl
      | cons b l' =>
        cases l' with
        | nil => rfl
        | cons d l'' =>
          rw [hr] at hlenrev
          simp at hlenrev
          omega

/-- C8 witness: `foo.bar.Class.method` abbreviates to `f.b.Class.method`. -/
theorem abbreviate_package_spec_witness :
    abbreviate_package (joinDot (["foo", "bar"] ++ ["Class", "method"])) =
      joinDot (["foo", "bar"].map strTake1 ++ ["Class", "method"]) :=
  abbreviate_package_spec.1 ["foo", "bar"] "Class" "method" (by simp)
    (by decide) (by decide) (by decide) (by decide) (by decide)

end Hpl

namespace Hprof

open H2F

/-! ### C10: the `remove_unknown_lineno` regex is a partial prefix match -/

theorem mem_splitsDesc (cs : List Char) (p : List Char × List Char) :
    p ∈ splitsDesc cs ↔ ∃ a b, cs = a ++ b ∧ a ≠ [] ∧ p = (a, b) := by
  simp only [splitsDesc, List.mem_map, List.mem_reverse, List.mem_range]
  constructor
  · rintro ⟨i, hi, rfl⟩
    refine ⟨cs.take (i + 1), cs.drop (i + 1), (List.take_append_drop (i + 1) cs).symm,
      ?_, rfl⟩
    have hlt : (cs.take (i + 1)).length = min (i + 1) cs.length := List.length_take _ _
    intro h
    rw [h] at hlt
    simp only [List.length_nil] at hlt
    omega
  · rintro ⟨a, b, rfl, ha, rfl⟩
    have hpos : 0 < a.length := List.length_pos.2 ha
    refine ⟨a.length - 1, ?_, ?_⟩
    · simp only [List.length_append]
      omega
    · have h1 : a.length - 1 + 1 = a.length := by omega
      rw [h1, List.take_left, List.drop_left]

theorem matchCParen_isSome (cs : List Char) :
    (matchCParen cs).isSome ↔ ∃ a b, cs = a ++ ')' :: b ∧ a ≠ [] := by
  unfold matchCParen
  rw [List.findSome?_isSome_iff]
  constructor
  · rintro ⟨p, hp, hsome⟩
    obtain ⟨a, b, rfl, ha, rfl⟩ := (mem_splitsDesc _ _).1 hp
    rcases b with _ | ⟨c, d⟩
    · simp at hsome
    · by_cases hc : c = ')'
      · subst hc
        exact ⟨a, d, rfl, ha⟩
      · simp [hc] at hsome
  · rintro ⟨a, b, rfl, ha⟩
    refine ⟨(a, ')' :: b), (mem_splitsDesc _ _).2 ⟨a, ')' :: b, rfl, ha, rfl⟩, ?_⟩
    simp

theorem matchBColon_isSome (cs : List Char) :
    (matchBColon cs).isSome ↔
      ∃ a b, cs = a ++ ':' :: b ∧ a ≠ [] ∧ (matchCParen b).isSome := by
  unfold matchBColon
  rw [List.findSome?_isSome_iff]
  constructor
  · rintro ⟨p, hp, hsome⟩
    obtain ⟨a, b, rfl, ha, rfl⟩ := (mem_splitsDesc _ _).1 hp
    rcases b with _ | ⟨c, d⟩
    · simp at hsome
    · by_cases hc : c = ':'
      · subst hc
        exact ⟨a, d, rfl, ha, by simpa using hsome⟩
      · simp [hc] at hsome
  · rintro ⟨a, b, rfl, ha, hb⟩
    refine ⟨(a, ':' :: b), (mem_splitsDesc _ _).2 ⟨a, ':' :: b, rfl, ha, rfl⟩, ?_⟩
    simpa using hb

theorem matchFrame_isSome (cs : List Char) :
    (matchFrame cs).isSome ↔
      ∃ a b, cs = a ++ '(' :: b ∧ a ≠ [] ∧ (matchBColon b).isSome := by
  unfold matchFrame
  rw [List.findSome?_isSome_iff]
  constructor
  · rintro ⟨p, hp, hsome⟩
    obtain ⟨a, b, rfl, ha, rfl⟩ := (mem_splitsDesc _ _).1 hp
    rcases b with _ | ⟨c, d⟩
    · simp at hsome
    · by_cases hc : c = '('
      · subst hc
        exact ⟨a, d, rfl, ha, by simpa using hsome⟩
      · simp [hc] at hsome
  · rintro ⟨a, b, rfl, ha, hb⟩
    refine ⟨(a, '(' :: b), (mem_splitsDesc _ _).2 ⟨a, '(' :: b, rfl, ha, rfl⟩, ?_⟩
    simpa using hb

theorem get_stacks_loop_error (d t s : Bool) :
    ∀ (blocks : List TraceBlock) (acc : List (String × List String))
      (b : TraceBlock) (e : String),
      b ∈ blocks → hasEmptySentinel b.stack = false →
      process_stack b.stack d s = .error e →
      ∃ e', get_stacks_loop d t s blocks acc = .error e' := by
  intro blocks
  induction blocks with
  | nil => intro acc b e hb; exact absurd hb (by simp)
  | cons b0 bs ih =>
    intro acc b e hb hemp herr
    unfold get_stacks_loop
    by_cases h0 : hasEmptySentinel b0.stack = true
    · rw [if_pos h0]
      rcases List.mem_cons.1 hb with rfl | hb'
      · exact absurd h0 (by simp [hemp])
      · exact ih acc b e hb' hemp herr
    · rw [if_neg h0]
      cases hp : process_stack b0.stack d s with
      | error e0 => exact ⟨e0, rfl⟩
      | ok stack =>
        rcases List.mem_cons.1 hb with rfl | hb'
        · rw [herr] at hp
          exact absurd hp (by simp)
        · exact ih _ b e hb' hemp herr

/-- C10 (amended): `remove_unknown_lineno` succeeds on exactly the lines that
decompose as `<start>(<mid>:<line>)<rest>` with non-empty `start`, `mid` and
`line` — the pattern is a *prefix* match, unanchored on the right, so a
`(file:line)` fragment anywhere after the first character suffices and need
not be a suffix. On any other line (in particular one with no parenthesized
`file:line` fragment at all) it fails with the `AttributeError`, and a
`TRACE` block containing such a line makes `get_stacks` fail. -/
theorem hprof_lineno_regex_amended :
    (∀ (line : String) (d : Bool),
      (∃ s, remove_unknown_lineno line d = .ok s) ↔
        ∃ a b c rest, line.data = a ++ '(' :: (b ++ ':' :: (c ++ ')' :: rest)) ∧
          a ≠ [] ∧ b ≠ [] ∧ c ≠ []) ∧
    (∀ (blocks : List TraceBlock) (d t s : Bool) (b : TraceBlock) (e : String),
      b ∈ blocks → hasEmptySentinel b.stack = false →
      process_stack b.stack d s = .error e →
      ∃ e', get_stacks blocks d t s = .error e') := by
  constructor
  · intro line d
    have hok : (∃ s, remove_unknown_lineno line d = .ok s) ↔
        (matchFrame line.data).isSome := by
      unfold remove_unknown_lineno
      constructor
      · rintro ⟨s, hs⟩
        cases hm : matchFrame line.data with
        | none => rw [hm] at hs; exact absurd hs (by simp)
        | some p => simp
      · intro hm
        obtain ⟨p, hp⟩ := Option.isSome_iff_exists.1 hm
        rw [hp]
        obtain ⟨start, lin⟩ := p
        by_cases h1 : (lin == "Unknown line".data) = true
        · exact ⟨strOfList start, by simp [h1]⟩
        · by_cases h2 : d = true
          · exact ⟨strOfList start, by simp [h1, h2]⟩
          · exact ⟨strOfList (start ++ ':' :: lin), by simp [h1, h2]⟩
    rw [hok, matchFrame_isSome]
    constructor
    · rintro ⟨a, b, hb, ha, hsome⟩
      obtain ⟨b', c', hc, hb', hsome'⟩ := (matchBColon_isSome b).1 hsome
      obtain ⟨c, rest, hrest, hcne⟩ := (matchCParen_isSome c').1 hsome'
      exact ⟨a, b', c, rest, by rw [hb, hc, hrest], ha, hb', hcne⟩
    · rintro ⟨a, b, c, rest, hdecomp, ha, hb, hc⟩
      refine ⟨a, b ++ ':' :: (c ++ ')' :: rest), hdecomp, ha, ?_⟩
      rw [matchBColon_isSome]
      refine ⟨b, c ++ ')' :: rest, rfl, hb, ?_⟩
      rw [matchCParen_isSome]
      exact ⟨c, rest, rfl, hc⟩
  · intro blocks d t s b e hb hemp herr
    exact get_stacks_loop_error d t s blocks [] b e hb hemp herr

/-- C10 witness: `a(b:c)x` decomposes as `<start>(<mid>:<line>)<rest>`
(obtained by applying the characterization to the successful run on that
line). -/
theorem hprof_lineno_regex_amended_witness :
    ∃ a b c rest, ("a(b:c)x" : String).data =
        a ++ '(' :: (b ++ ':' :: (c ++ ')' :: rest)) ∧
      a ≠ [] ∧ b ≠ [] ∧ c ≠ [] :=
  (hprof_lineno_regex_amended.1 "a(b:c)x" false).mp ⟨"a:c", by decide⟩

/-- C10 counterexample: the line `a(b:c)x` has no parenthesized
`(file:line)` suffix (it does not even end in `)`), yet
`remove_unknown_lineno` succeeds on it instead of failing with the attribute
error the claim predicts for every line without such a suffix. -/
theorem hprof_lineno_regex_cex :
    remove_unknown_lineno "a(b:c)x" false = .ok "a:c" ∧
    strEndsWith "a(b:c)x" ")" = false := by
  constructor
  · decide
  · decide

/-! ### C4: the empty-stack sentinel versus the sample-count section -/

theorem get_stacks_loop_filter (d t s : Bool) :
    ∀ (blocks : List TraceBlock) (acc : List (String × List String)),
      get_stacks_loop d t s blocks acc =
        get_stacks_loop d t s
          (blocks.filter (fun b => !hasEmptySentinel b.stack)) acc := by
  intro blocks
  induction blocks with
  | nil => intro acc; rfl
  | cons b bs ih =>
    intro acc
    by_cases h0 : hasEmptySentinel b.stack = true
    · rw [List.filter_cons]
      simp only [h0, Bool.not_true, Bool.false_eq_true, if_false]
      conv_lhs => rw [get_stacks_loop]
      rw [if_pos h0]
      exact ih acc
    · have h0' : hasEmptySentinel b.stack = false := by simpa using h0
      rw [List.filter_cons]
      simp only [h0', Bool.not_false, if_true]
      conv_lhs => rw [get_stacks_loop]
      conv_rhs => rw [get_stacks_loop]
      rw [if_neg (by simp [h0']), if_neg (by simp [h0'])]
      cases hp : process_stack b.stack d s with
      | error e => rfl
      | ok stack => exact ih _

/-- C4 (amended): a `TRACE` block whose body contains the `<empty>` sentinel
contributes nothing to the stack mapping (`get_stacks` behaves as if the
block were absent); but if such a trace id still appears in the sample-count
section, the emission step raises a lookup `KeyError` instead of completing,
and the run emits the output lines only when every counted id has a stack. -/
theorem hprof_empty_trace_amended :
    (∀ (blocks : List TraceBlock) (d t s : Bool),
      get_stacks blocks d t s =
        get_stacks (blocks.filter (fun b => !hasEmptySentinel b.stack)) d t s) ∧
    (∀ (stackMap : List (String × List String)) (counts : List (String × String))
        (id c : String), (id, c) ∈ counts → List.lookup id stackMap = none →
      ∃ e, to_flamegraph stackMap counts = .error e) ∧
    (∀ (stackMap : List (String × List String)) (counts : List (String × String)),
      (∀ p ∈ counts, (List.lookup p.1 stackMap).isSome) →
      ∃ ls, to_flamegraph stackMap counts = .ok ls) := by
  refine ⟨?_, ?_, ?_⟩
  · intro blocks d t s
    exact get_stacks_loop_filter d t s blocks []
  · intro stackMap counts
    induction counts with
    | nil => intro id c h; exact absurd h (by simp)
    | cons p rest ih =>
      intro id c hmem hnone
      obtain ⟨id0, c0⟩ := p
      unfold to_flamegraph
      cases hl : List.lookup id0 stackMap with
      | none => exact ⟨"KeyError: " ++ id0, rfl⟩
      | some stack =>
        have hid : id ≠ id0 := by
          rintro rfl
          rw [hl] at hnone
          exact absurd hnone (by simp)
        have hmem' : (id, c) ∈ rest := by
          rcases List.mem_cons.1 hmem with heq | h
          · exact absurd (congrArg Prod.fst heq) hid
          · exact h
        obtain ⟨e, he⟩ := ih id c hmem' hnone
        rw [he]
        exact ⟨e, rfl⟩
  · intro stackMap counts
    induction counts with
    | nil => intro _; exact ⟨[], rfl⟩
    | cons p rest ih =>
      intro h
      obtain ⟨id0, c0⟩ := p
      have hp := h (id0, c0) (List.mem_cons_self _ _)
      obtain ⟨stack, hl⟩ := Option.isSome_iff_exists.1 hp
      obtain ⟨ls, hls⟩ := ih (fun q hq => h q (List.mem_cons_of_mem _ hq))
      refine ⟨(joinWith ';' stack.reverse ++ " " ++ c0) :: ls, ?_⟩
      unfold to_flamegraph
      rw [hl, hls]

/-- C4 witness: a counted id with no stack makes `to_flamegraph` fail
(applying the amended characterization at a concrete mapping). -/
theorem hprof_empty_trace_amended_witness :
    ∃ e, to_flamegraph [("1", ["foo.bar:12"])] [("2", "5")] = .error e :=
  hprof_empty_trace_amended.2.1 [("1", ["foo.bar:12"])] [("2", "5")] "2" "5"
    (by simp) (by decide)

/-- C4 counterexample: HPROF content with two `TRACE` blocks, the second
being the `<empty>` sentinel, and both ids counted in the `CPU SAMPLES`
section: the empty trace id gets no stack entry, and the emission step for
the counts fails with `KeyError: 2` — the run does not complete and emits no
lines, contrary to the claim. -/
theorem hprof_empty_trace_cex :
    get_stacks [TraceBlock.mk "1" none "\tfoo.bar(Baz.java:12)\n",
      TraceBlock.mk "2" none "\t<empty>\n"] false false false =
      .ok [("1", ["foo.bar:12"])] ∧
    to_flamegraph [("1", ["foo.bar:12"])] [("1", "10"), ("2", "5")] =
      .error "KeyError: 2" := by
  constructor
  · decide
  · decide

end Hprof
